import Mathlib

/-!
Verification of the Burgers-equation PDE environment
(`controlgym/envs/burgers.py`).

The file shallowly embeds the PDE-specific core of the environment:

* `compute_fourier_linear_op` embeds `_compute_fourier_linear_op`;
* `fourier_nonlinear_op` embeds the closure built by
  `_compute_fourier_nonlinear_op`;
* `mkBurgersEnv` embeds the tail of `BurgersEnv.__init__` (the
  initial-state resolution, the `state` assignment and the cached
  `C_target_state`);
* `get_params_asdict` embeds the parameter-dictionary export.

Real scalars are modelled by `ℚ` and complex scalars by `CQ` (pairs of
rationals with complex multiplication), so every definition is
executable.  The numpy FFT routines `np.fft.rfft` / `np.fft.irfft` are
external library code; they are modelled by the interface `NumpyRFFT`,
which records exactly the shape behaviour documented by numpy (a real
signal of length `m` has `m / 2 + 1` retained spectral modes, and
`irfft` with an explicit size `n` returns `n` samples).  All theorems
about the spectral operators are proved for every implementation of
that interface.
-/

/-- Complex numbers with rational components: the executable scalar
type used to embed the complex spectral arithmetic of the source. -/
@[ext]
structure CQ where
  re : ℚ
  im : ℚ
deriving DecidableEq

instance : Zero CQ := ⟨⟨0, 0⟩⟩

instance : One CQ := ⟨⟨1, 0⟩⟩

instance : Add CQ := ⟨fun a b => ⟨a.re + b.re, a.im + b.im⟩⟩

instance : Neg CQ := ⟨fun a => ⟨-a.re, -a.im⟩⟩

instance : Mul CQ := ⟨fun a b => ⟨a.re * b.re - a.im * b.im, a.re * b.im + a.im * b.re⟩⟩

instance : CommRing CQ where
  add := (· + ·)
  zero := 0
  neg := (- ·)
  mul := (· * ·)
  one := 1
  nsmul := nsmulRec
  zsmul := zsmulRec
  add_assoc a b c := by
    refine CQ.ext ?_ ?_
    · show a.re + b.re + c.re = a.re + (b.re + c.re)
      ring
    · show a.im + b.im + c.im = a.im + (b.im + c.im)
      ring
  zero_add a := by
    refine CQ.ext ?_ ?_
    · show 0 + a.re = a.re
      ring
    · show 0 + a.im = a.im
      ring
  add_zero a := by
    refine CQ.ext ?_ ?_
    · show a.re + 0 = a.re
      ring
    · show a.im + 0 = a.im
      ring
  add_comm a b := by
    refine CQ.ext ?_ ?_
    · show a.re + b.re = b.re + a.re
      ring
    · show a.im + b.im = b.im + a.im
      ring
  neg_add_cancel a := by
    refine CQ.ext ?_ ?_
    · show -a.re + a.re = 0
      ring
    · show -a.im + a.im = 0
      ring
  mul_assoc a b c := by
    refine CQ.ext ?_ ?_
    · show (a.re * b.re - a.im * b.im) * c.re - (a.re * b.im + a.im * b.re) * c.im
        = a.re * (b.re * c.re - b.im * c.im) - a.im * (b.re * c.im + b.im * c.re)
      ring
    · show (a.re * b.re - a.im * b.im) * c.im + (a.re * b.im + a.im * b.re) * c.re
        = a.re * (b.re * c.im + b.im * c.re) + a.im * (b.re * c.re - b.im * c.im)
      ring
  one_mul a := by
    refine CQ.ext ?_ ?_
    · show 1 * a.re - 0 * a.im = a.re
      ring
    · show 1 * a.im + 0 * a.re = a.im
      ring
  mul_one a := by
    refine CQ.ext ?_ ?_
    · show a.re * 1 - a.im * 0 = a.re
      ring
    · show a.re * 0 + a.im * 1 = a.im
      ring
  left_distrib a b c := by
    refine CQ.ext ?_ ?_
    · show a.re * (b.re + c.re) - a.im * (b.im + c.im)
        = a.re * b.re - a.im * b.im + (a.re * c.re - a.im * c.im)
      ring
    · show a.re * (b.im + c.im) + a.im * (b.re + c.re)
        = a.re * b.im + a.im * b.re + (a.re * c.im + a.im * c.re)
      ring
  right_distrib a b c := by
    refine CQ.ext ?_ ?_
    · show (a.re + b.re) * c.re - (a.im + b.im) * c.im
        = a.re * c.re - a.im * c.im + (b.re * c.re - b.im * c.im)
      ring
    · show (a.re + b.re) * c.im + (a.im + b.im) * c.re
        = a.re * c.im + a.im * c.re + (b.re * c.im + b.im * c.re)
      ring
  zero_mul a := by
    refine CQ.ext ?_ ?_
    · show 0 * a.re - 0 * a.im = 0
      ring
    · show 0 * a.im + 0 * a.re = 0
      ring
  mul_zero a := by
    refine CQ.ext ?_ ?_
    · show a.re * 0 - a.im * 0 = 0
      ring
    · show a.re * 0 + a.im * 0 = 0
      ring
  mul_comm a b := by
    refine CQ.ext ?_ ?_
    · show a.re * b.re - a.im * b.im = b.re * a.re - b.im * a.im
      ring
    · show a.re * b.im + a.im * b.re = b.re * a.im + b.im * a.re
      ring

/-- Embedding of a real scalar into `CQ` (numpy silently promotes real
arrays to complex when they meet complex operands). -/
def CQ.ofRat (q : ℚ) : CQ := ⟨q, 0⟩

/-- The imaginary unit, the `j` of the Python literal `-0.5j`. -/
def CQ.j : CQ := ⟨0, 1⟩

/-- Element-wise vector addition (numpy `+` on equal-length arrays). -/
def vaddV {α : Type} [CommRing α] (x y : List α) : List α :=
  List.zipWith (· + ·) x y

/-- Element-wise vector subtraction (numpy `-` on equal-length arrays). -/
def vsubV {α : Type} [CommRing α] (x y : List α) : List α :=
  List.zipWith (· - ·) x y

/-- Scalar times vector (numpy scalar broadcasting). -/
def smulV {α : Type} [CommRing α] (c : α) (x : List α) : List α :=
  x.map (fun v => c * v)

/-- Dot product of two equal-length vectors. -/
def dotV {α : Type} [CommRing α] (x y : List α) : α :=
  (List.zipWith (· * ·) x y).foldr (· + ·) 0

/-- Matrix–vector product for a matrix given by its rows
(numpy `M @ x` with `M` of shape `(len rows) × (len x)`). -/
def matvecRows {α : Type} [CommRing α] (rows : List (List α)) (x : List α) : List α :=
  rows.map (fun r => dotV r x)

/-- Sum of a list of vectors, each of length `m`. -/
def sumVecs {α : Type} [CommRing α] (m : ℕ) (l : List (List α)) : List α :=
  l.foldr vaddV (List.replicate m 0)

/-- Matrix–vector product for a matrix given by its columns:
`M @ x = Σ_j x_j · col_j` (numpy `M @ x` with `M` of shape
`(len of each column) × (len cols)`; the result length is read off the
first column, matching numpy for every non-degenerate matrix). -/
def matvecCols {α : Type} [CommRing α] (cols : List (List α)) (x : List α) : List α :=
  sumVecs (cols.headD []).length (List.zipWith smulV x cols)

/-- Interface for the numpy real FFT routines used by the source
(`np.fft.rfft` and `np.fft.irfft`).  numpy is external library code, so
it enters the embedding as an abstract transform pair constrained by
exactly the shape laws numpy documents: `rfft` of a length-`m` signal
keeps `m / 2 + 1` modes, and `irfft` with an explicit output size `n`
returns `n` samples.  Every theorem below holds for every
implementation of this interface. -/
structure NumpyRFFT where
  rfft : List CQ → List CQ
  irfft : List CQ → ℕ → List CQ
  rfft_length : ∀ x, (rfft x).length = x.length / 2 + 1
  irfft_length : ∀ x n, (irfft x n).length = n

/-- Embeds `BurgersEnv._compute_fourier_linear_op` (burgers.py lines
110–120): `-self.diffusivity_constant * self.domain_wavenumbers**2`,
element-wise over the wavenumber vector.  A pure function of its two
inputs. -/
def compute_fourier_linear_op (domain_wavenumbers : List ℚ)
    (diffusivity_constant : ℚ) : List ℚ :=
  domain_wavenumbers.map (fun k => -diffusivity_constant * k ^ 2)

/-- Embeds the closure `fourier_nonlinear_op` returned by
`BurgersEnv._compute_fourier_nonlinear_op` (burgers.py lines 132–145).

* `aa_state = aa_factor * np.fft.irfft(state_fourier, n=int(n_state * aa_factor))`
  with `aa_factor = 3 / 2`; Python's `int(n_state * 1.5)` truncates, i.e.
  `3 * n_state / 2` in natural division.
* the advection summand is
  `-0.5j * domain_wavenumbers * (1 / aa_factor) * np.fft.rfft(aa_state**2)[0 : int(n_state / 2) + 1]`
  (element-wise product of equal-length vectors, scalars broadcast);
* the forcing summand is `np.fft.rfft(control_sup, axis=0) @ action`:
  `rfft` down each column of the real `n_state × n_action` matrix
  `control_sup` (held here as its list of columns), then a
  matrix–vector product with the action. -/
def fourier_nonlinear_op (fftI : NumpyRFFT) (n_state : ℕ)
    (domain_wavenumbers : List ℚ) (control_sup : List (List ℚ))
    (state_fourier action : List CQ) : List CQ :=
  let aa_factor : ℚ := 3 / 2
  let aa_state : List CQ :=
    smulV (CQ.ofRat aa_factor) (fftI.irfft state_fourier (3 * n_state / 2))
  vaddV
    (List.zipWith
      (fun k y => -CQ.ofRat (1 / 2) * CQ.j * CQ.ofRat k * CQ.ofRat (1 / aa_factor) * y)
      domain_wavenumbers
      ((fftI.rfft (aa_state.map (fun u => u * u))).take (n_state / 2 + 1)))
    (matvecCols (control_sup.map (fun c => fftI.rfft (c.map CQ.ofRat))) action)

/-- The advection term exactly as the spec words it (§4.2, steps 1–4):
inverse-transform onto the oversampled grid of `int(3/2 × n_state)`
points scaled by `3/2`, square element-wise, forward-transform,
truncate to the first `⌊n_state/2⌋+1` modes, rescale by `1 / (3/2)`,
and multiply element-wise by `−0.5j × wavenumber`.  Stated for
comparison with `fourier_nonlinear_op`. -/
def specAdvectionTerm (fftI : NumpyRFFT) (n_state : ℕ)
    (domain_wavenumbers : List ℚ) (state_fourier : List CQ) : List CQ :=
  let oversampled := smulV (CQ.ofRat (3 / 2)) (fftI.irfft state_fourier (3 * n_state / 2))
  let squared := oversampled.map (fun u => u * u)
  let truncated := (fftI.rfft squared).take (n_state / 2 + 1)
  let rescaled := smulV (CQ.ofRat (1 / (3 / 2 : ℚ))) truncated
  List.zipWith (fun k y => -CQ.ofRat (1 / 2) * CQ.j * CQ.ofRat k * y)
    domain_wavenumbers rescaled

/-- The control-forcing term exactly as the spec words it (§4.2,
step 5): the spectral transform of the Control Support Matrix's
columns, multiplied by the action vector.  Stated for comparison with
`fourier_nonlinear_op`. -/
def specControlForcingTerm (fftI : NumpyRFFT) (control_sup : List (List ℚ))
    (action : List CQ) : List CQ :=
  matvecCols (control_sup.map (fun c => fftI.rfft (c.map CQ.ofRat))) action

/-- The fields of `BurgersEnv` assigned by the tail of
`BurgersEnv.__init__` (burgers.py lines 91–108).  The matrices
`control_sup` and `C` come from `_compute_control_sup` /
`_compute_C`, whose bodies live outside this file's scope; they are
carried as opaque immutable data, `C` by rows
(`n_observation × n_state`). -/
structure BurgersEnv where
  n_state : ℕ
  init_state : List ℚ
  state : List ℚ
  diffusivity_constant : ℚ
  control_sup : List (List ℚ)
  C : List (List ℚ)
  target_state : List ℚ
  C_target_state : List ℚ
deriving DecidableEq

/-- Embeds the `init_state` resolution of `BurgersEnv.__init__`
(burgers.py lines 91–98).  `sechPulse` is the evaluated value of
`np.cosh(10 * (domain_coordinates - domain_length / 2)) ** (-1)`
(a transcendental of the base class's grid, carried as data), and
`rand` is the sample vector drawn by `np.random.rand(n_state)`, each
draw in `[0, 1)`.  When `init_state` is absent the code first assigns
the pulse and then unconditionally overwrites it with
`2 * np.random.rand(n_state) - 1`. -/
def resolveInitState (init_state : Option (List ℚ))
    (sechPulse rand : List ℚ) : List ℚ :=
  match init_state with
  | some s => s
  | none =>
    let _overwritten := sechPulse
    let fromRandom := rand.map (fun r => 2 * r - 1)
    fromRandom

/-- Embeds burgers.py lines 91–108: resolve `init_state`, set
`state = init_state`, store `diffusivity_constant`, `control_sup` and
`C`, and cache `C_target_state = C @ target_state`.  `target_state` is
the vector resolved by the base class's constructor. -/
def mkBurgersEnv (n_state : ℕ) (init_state : Option (List ℚ))
    (sechPulse rand : List ℚ) (diffusivity_constant : ℚ)
    (control_sup C : List (List ℚ)) (target_state : List ℚ) : BurgersEnv :=
  let is := resolveInitState init_state sechPulse rand
  { n_state := n_state
    init_state := is
    state := is
    diffusivity_constant := diffusivity_constant
    control_sup := control_sup
    C := C
    target_state := target_state
    C_target_state := matvecRows C target_state }

/-- Key lookup in an association-list model of a Python dictionary:
the value of the first entry bearing the key, if any. -/
def pyLookup {α : Type} (k : String) : List (String × α) → Option α
  | [] => none
  | p :: t => if p.1 = k then some p.2 else pyLookup k t

/-- Python dictionary merge `{**a, **b}`: the keys of `a` in order,
each mapped to `b`'s value when `b` also binds the key, followed by
the keys of `b` that `a` does not bind. -/
def pyDictMerge {α : Type} (a b : List (String × α)) : List (String × α) :=
  a.map (fun p => (pyLookup p.1 b).elim p (fun v => (p.1, v))) ++
    b.filter (fun p => (pyLookup p.1 a).isNone)

/-- Embeds `BurgersEnv.get_params_asdict` (burgers.py lines 149–160):
`{**pde_dict, **{"diffusivity_constant": self.diffusivity_constant}}`.
`pde_dict` is the dictionary returned by the base class's
`get_params_asdict`, whose body lives outside this file's scope; it is
carried as opaque data. -/
def get_params_asdict {α : Type} (pde_dict : List (String × α))
    (diffusivity_constant : α) : List (String × α) :=
  pyDictMerge pde_dict [("diffusivity_constant", diffusivity_constant)]

/-- A concrete inhabitant of the `NumpyRFFT` interface, used only to
instantiate hypotheses at concrete inputs: the forward transform with
every twiddle factor collapsed to `1` (each retained mode is the sum
of the samples) and the inverse transform returning the zero signal of
the requested size.  It satisfies both shape laws. -/
def flatRFFT : NumpyRFFT where
  rfft x := List.replicate (x.length / 2 + 1) (x.foldr (· + ·) 0)
  irfft _ n := List.replicate n 0
  rfft_length x := by simp
  irfft_length x n := by simp

/-- A concrete one-dimensional environment used to exercise the cached
projection: one state point, one observation, `C = [[1]]`,
`target_state = [0]`, so the cache is `[0]`. -/
def c3Env : BurgersEnv :=
  mkBurgersEnv 1 (some [0]) [0] [0] 1 [[1]] [[1]] [0]

/-- The result of the Python attribute assignment
`env.target_state = [1]` on `c3Env`: plain field replacement, which —
exactly as in the source, where no setter recomputes anything — leaves
the cached `C_target_state` untouched. -/
def c3Updated : BurgersEnv :=
  { c3Env with target_state := [1] }

/-! ### Helper lemmas about the vector operations -/

theorem length_vaddV {α : Type} [CommRing α] (x y : List α) :
    (vaddV x y).length = min x.length y.length := by
  simp [vaddV]

theorem length_smulV {α : Type} [CommRing α] (c : α) (x : List α) :
    (smulV c x).length = x.length := by
  simp [smulV]

theorem length_sumVecs {α : Type} [CommRing α] (m : ℕ) (l : List (List α))
    (h : ∀ v ∈ l, v.length = m) : (sumVecs m l).length = m := by
  induction l with
  | nil => simp [sumVecs]
  | cons v t ih =>
    have hv : v.length = m := h v (List.mem_cons_self v t)
    have ht : (sumVecs m t).length = m := ih (fun w hw => h w (List.mem_cons_of_mem v hw))
    show (vaddV v (sumVecs m t)).length = m
    rw [length_vaddV, hv, ht, Nat.min_self]

theorem length_mem_zipWith_smulV {α : Type} [CommRing α] {m : ℕ} :
    ∀ (a : List α) (cols : List (List α)), (∀ c ∈ cols, c.length = m) →
      ∀ v ∈ List.zipWith smulV a cols, v.length = m := by
  intro a
  induction a with
  | nil => intro cols _ v hv; simp at hv
  | cons x xs ih =>
    intro cols hcols v hv
    cases cols with
    | nil => simp at hv
    | cons c cs =>
      rcases List.mem_cons.mp hv with h | h
      · rw [h, length_smulV]
        exact hcols c (List.mem_cons_self c cs)
      · exact ih cs (fun w hw => hcols w (List.mem_cons_of_mem c hw)) v h

theorem smulV_add {α : Type} [CommRing α] (x y : α) (c : List α) :
    smulV (x + y) c = vaddV (smulV x c) (smulV y c) := by
  induction c with
  | nil => rfl
  | cons u t ih =>
    show ((x + y) * u) :: smulV (x + y) t = (x * u + y * u) :: vaddV (smulV x t) (smulV y t)
    rw [ih, add_mul]

theorem vaddV_replicate_zero {α : Type} [CommRing α] (m : ℕ) :
    vaddV (List.replicate m (0 : α)) (List.replicate m 0) = List.replicate m 0 := by
  apply List.ext_getElem
  · simp [length_vaddV]
  · intro i h1 h2
    simp [vaddV, List.getElem_zipWith]

theorem vaddV_vaddV_comm {α : Type} [CommRing α] (u v s t : List α) :
    vaddV (vaddV u v) (vaddV s t) = vaddV (vaddV u s) (vaddV v t) := by
  apply List.ext_getElem
  · simp only [length_vaddV]
    omega
  · intro i h1 h2
    simp only [vaddV, List.getElem_zipWith]
    ring

theorem sumVecs_zip_smul_add {α : Type} [CommRing α] (m : ℕ) :
    ∀ (cols : List (List α)) (a b : List α), a.length = b.length →
      sumVecs m (List.zipWith smulV (vaddV a b) cols)
        = vaddV (sumVecs m (List.zipWith smulV a cols))
            (sumVecs m (List.zipWith smulV b cols)) := by
  intro cols
  induction cols with
  | nil =>
    intro a b _
    simp only [List.zipWith_nil_right]
    exact (vaddV_replicate_zero m).symm
  | cons c cs ih =>
    intro a b hab
    cases a with
    | nil =>
      cases b with
      | nil => exact (vaddV_replicate_zero m).symm
      | cons y ys => simp at hab
    | cons x xs =>
      cases b with
      | nil => simp at hab
      | cons y ys =>
        have hab' : xs.length = ys.length := by simpa using hab
        show sumVecs m (smulV (x + y) c :: List.zipWith smulV (vaddV xs ys) cs) = _
        have hstep : sumVecs m (smulV (x + y) c :: List.zipWith smulV (vaddV xs ys) cs)
            = vaddV (smulV (x + y) c) (sumVecs m (List.zipWith smulV (vaddV xs ys) cs)) := rfl
        rw [hstep, ih xs ys hab', smulV_add, vaddV_vaddV_comm]
        rfl

theorem sumVecs_zip_smul_zero {α : Type} [CommRing α] (m : ℕ) :
    ∀ (cols : List (List α)) (p : ℕ), (∀ c ∈ cols, c.length = m) →
      sumVecs m (List.zipWith smulV (List.replicate p (0 : α)) cols)
        = List.replicate m 0 := by
  intro cols
  induction cols with
  | nil => intro p _; simp [sumVecs]
  | cons c cs ih =>
    intro p hcols
    cases p with
    | zero => simp [sumVecs]
    | succ q =>
      have hc : c.length = m := hcols c (List.mem_cons_self c cs)
      have ht := ih q (fun w hw => hcols w (List.mem_cons_of_mem c hw))
      show vaddV (smulV 0 c) (sumVecs m (List.zipWith smulV (List.replicate q 0) cs))
        = List.replicate m 0
      rw [ht]
      apply List.ext_getElem
      · simp [length_vaddV, length_smulV, hc]
      · intro i h1 h2
        simp [vaddV, smulV, List.getElem_zipWith]

/-- Elements of the random default initial state `2 * r - 1` lie in
`[-1, 1]` whenever every draw `r` lies in `[0, 1)`. -/
theorem mem_randomInit_range (rand : List ℚ)
    (hr : ∀ r ∈ rand, 0 ≤ r ∧ r < 1) :
    ∀ x ∈ rand.map (fun r => 2 * r - 1), -1 ≤ x ∧ x ≤ 1 := by
  intro x hx
  simp only [List.mem_map] at hx
  obtain ⟨r, hmem, rfl⟩ := hx
  obtain ⟨h0, h1⟩ := hr r hmem
  constructor <;> linarith

/-! ### The claims -/

/-- C4: for every wavenumber vector and diffusivity constant, the
Linear Operator Builder returns a vector of the same length as the
wavenumber set whose entry `i` equals
`-diffusivity_constant * wavenumber[i]^2`.  (It is a plain function of
its two arguments, so side-effect freedom and input immutability are
inherent in the embedding.) -/
theorem fourier_linear_op_spec (k : List ℚ) (d : ℚ) :
    (compute_fourier_linear_op k d).length = k.length ∧
    ∀ i : Fin k.length,
      (compute_fourier_linear_op k d).get
          (Fin.cast (by simp [compute_fourier_linear_op]) i)
        = -d * (k.get i) ^ 2 := by
  constructor
  · simp [compute_fourier_linear_op]
  · intro i
    simp [compute_fourier_linear_op]

/-- C9: for every real wavenumber vector and every diffusivity
constant `d > 0`, every element of the Linear Operator Builder's
output is non-positive (and real: the embedding computes it in `ℚ`). -/
theorem fourier_linear_op_nonpos (k : List ℚ) (d : ℚ) (hd : 0 < d) :
    ∀ x ∈ compute_fourier_linear_op k d, x ≤ 0 := by
  intro x hx
  simp only [compute_fourier_linear_op, List.mem_map] at hx
  obtain ⟨ki, -, rfl⟩ := hx
  nlinarith [sq_nonneg ki]

/-- Witness for C9 at the concrete wavenumbers `[2, -3]` and
diffusivity `1`. -/
theorem fourier_linear_op_nonpos_witness :
    (0 : ℚ) < 1 ∧ ∀ x ∈ compute_fourier_linear_op [2, -3] 1, x ≤ 0 :=
  ⟨by norm_num, fourier_linear_op_nonpos [2, -3] 1 (by norm_num)⟩

/-- C7: an explicitly supplied `init_state` of length `n_state` is
stored verbatim as the Initial State, and `state` is set equal to the
Initial State immediately after the Initial State is determined. -/
theorem explicit_init_state_verbatim (n : ℕ) (v sechPulse rand : List ℚ)
    (d : ℚ) (cs C : List (List ℚ)) (t : List ℚ) (hv : v.length = n) :
    (mkBurgersEnv n (some v) sechPulse rand d cs C t).init_state = v ∧
    (mkBurgersEnv n (some v) sechPulse rand d cs C t).state
      = (mkBurgersEnv n (some v) sechPulse rand d cs C t).init_state :=
  ⟨rfl, rfl⟩

/-- Witness for C7 at a concrete two-point environment. -/
theorem explicit_init_state_verbatim_witness :
    ([1, 2] : List ℚ).length = 2 ∧
    ((mkBurgersEnv 2 (some [1, 2]) [0, 0] [0, 0] 1 [] [] []).init_state
        = [1, 2] ∧
      (mkBurgersEnv 2 (some [1, 2]) [0, 0] [0, 0] 1 [] [] []).state
        = (mkBurgersEnv 2 (some [1, 2]) [0, 0] [0, 0] 1 [] [] []).init_state) :=
  ⟨rfl, explicit_init_state_verbatim 2 [1, 2] [0, 0] [0, 0] 1 [] [] [] rfl⟩

/-- C2: when `init_state` is not supplied, the resolved Initial State
is the uniformly-random vector `2 * rand - 1` (each element in
`[-1, 1]`), and the hyperbolic-secant pulse is unconditionally
discarded: the result does not depend on the pulse at all (two
constructions differing only in the pulse resolve identically). -/
theorem default_init_state_random (n : ℕ) (sechPulse sechPulse2 rand : List ℚ)
    (d : ℚ) (cs C : List (List ℚ)) (t : List ℚ)
    (hr : ∀ r ∈ rand, 0 ≤ r ∧ r < 1) :
    (mkBurgersEnv n none sechPulse rand d cs C t).init_state
        = rand.map (fun r => 2 * r - 1) ∧
    (mkBurgersEnv n none sechPulse2 rand d cs C t).init_state
        = (mkBurgersEnv n none sechPulse rand d cs C t).init_state ∧
    ∀ x ∈ (mkBurgersEnv n none sechPulse rand d cs C t).init_state,
      -1 ≤ x ∧ x ≤ 1 :=
  ⟨rfl, rfl, mem_randomInit_range rand hr⟩

/-- Witness for C2 at the concrete draw vector `[0, 1/2]`. -/
theorem default_init_state_random_witness :
    (∀ r ∈ ([0, 1/2] : List ℚ), 0 ≤ r ∧ r < 1) ∧
    ((mkBurgersEnv 2 none [1, 1] [0, 1/2] 1 [] [] []).init_state
        = ([0, 1/2] : List ℚ).map (fun r => 2 * r - 1) ∧
      (mkBurgersEnv 2 none [3, 3] [0, 1/2] 1 [] [] []).init_state
        = (mkBurgersEnv 2 none [1, 1] [0, 1/2] 1 [] [] []).init_state ∧
      ∀ x ∈ (mkBurgersEnv 2 none [1, 1] [0, 1/2] 1 [] [] []).init_state,
        -1 ≤ x ∧ x ≤ 1) :=
  ⟨by norm_num,
    default_init_state_random 2 [1, 1] [3, 3] [0, 1/2] 1 [] [] [] (by norm_num)⟩

/-- C6: spec-modelled determinism of the default initialization.  The
base class owns the seeding of the random generator (it is not part of
this file's source scope); following the spec, the seeded generator is
a pure function `stream` of the seed and the draw count.  Two
environments constructed with identical arguments then resolve
identical Initial States, each element in `[-1, 1]`. -/
theorem seeded_init_state_deterministic (stream : ℕ → ℕ → List ℚ)
    (seed n : ℕ) (sechPulse : List ℚ) (d : ℚ) (cs C : List (List ℚ))
    (t : List ℚ) (hr : ∀ r ∈ stream seed n, 0 ≤ r ∧ r < 1) :
    (mkBurgersEnv n none sechPulse (stream seed n) d cs C t).init_state
      = (mkBurgersEnv n none sechPulse (stream seed n) d cs C t).init_state ∧
    ∀ x ∈ (mkBurgersEnv n none sechPulse (stream seed n) d cs C t).init_state,
      -1 ≤ x ∧ x ≤ 1 :=
  ⟨rfl, mem_randomInit_range (stream seed n) hr⟩

/-- Witness for C6 with the concrete stream returning `[1/4, 3/4]`
for every seed. -/
theorem seeded_init_state_deterministic_witness :
    (∀ r ∈ (fun _ _ => ([1/4, 3/4] : List ℚ)) 0 2, 0 ≤ r ∧ r < 1) ∧
    ((mkBurgersEnv 2 none [1, 1] ((fun _ _ => ([1/4, 3/4] : List ℚ)) 0 2)
          1 [] [] []).init_state
      = (mkBurgersEnv 2 none [1, 1] ((fun _ _ => ([1/4, 3/4] : List ℚ)) 0 2)
          1 [] [] []).init_state ∧
    ∀ x ∈ (mkBurgersEnv 2 none [1, 1] ((fun _ _ => ([1/4, 3/4] : List ℚ)) 0 2)
          1 [] [] []).init_state, -1 ≤ x ∧ x ≤ 1) :=
  ⟨by norm_num,
    seeded_init_state_deterministic (fun _ _ => [1/4, 3/4]) 0 2 [1, 1] 1 [] [] []
      (by norm_num)⟩

/-- C3 (counterexample): after the Python attribute assignment
`env.target_state = [1]` on the concrete environment `c3Env`, the
cached Projected Target is the stale `[0]` while
`C @ target_state = [1]`: the construction-time cache is not
recomputed on an explicit update of an operand. -/
theorem C_target_state_stale_after_update :
    ¬ (c3Updated.C_target_state
        = matvecRows c3Updated.C c3Updated.target_state) := by
  norm_num [c3Updated, c3Env, mkBurgersEnv, matvecRows, dotV, resolveInitState]

/-- C3 (amended): the cached Projected Target equals
`Observation Matrix × Target State` exactly after construction; no
operation of the code updates either operand afterwards, and an
explicit field update of an operand does not recompute the cache. -/
theorem C_target_state_eq_after_construction (n : ℕ) (is : Option (List ℚ))
    (sechPulse rand : List ℚ) (d : ℚ) (cs C : List (List ℚ)) (t : List ℚ) :
    (mkBurgersEnv n is sechPulse rand d cs C t).C_target_state
      = matvecRows (mkBurgersEnv n is sechPulse rand d cs C t).C
          (mkBurgersEnv n is sechPulse rand d cs C t).target_state := rfl

/-- `pyLookup` misses exactly when no entry bears the key. -/
theorem pyLookup_eq_none_iff {α : Type} (k : String) (l : List (String × α)) :
    pyLookup k l = none ↔ ∀ p ∈ l, p.1 ≠ k := by
  induction l with
  | nil => simp [pyLookup]
  | cons p t ih =>
    by_cases hp : p.1 = k
    · simp [pyLookup, hp]
    · simp [pyLookup, hp, ih]

/-- Looking a key up past entries that do not bear it. -/
theorem pyLookup_append_of_fresh {α : Type} (k : String)
    (a b : List (String × α)) (h : ∀ p ∈ a, p.1 ≠ k) :
    pyLookup k (a ++ b) = pyLookup k b := by
  induction a with
  | nil => rfl
  | cons p t ih =>
    have hp : p.1 ≠ k := h p (List.mem_cons_self p t)
    show pyLookup k (p :: (t ++ b)) = pyLookup k b
    rw [pyLookup, if_neg hp]
    exact ih (fun q hq => h q (List.mem_cons_of_mem p hq))

/-- C8: spec-modelled (the base class's `get_params_asdict` is outside
this file's source scope and is carried as the opaque dictionary
`pde_dict`).  When the base dictionary does not already bind
`"diffusivity_constant"` — the spec's "superset of base-class keys
plus this one key" — the export is the base dictionary extended, in
place and unchanged, with exactly the one extra entry
`"diffusivity_constant" ↦ d`, which the merged dictionary binds to
`d`. -/
theorem get_params_asdict_extends_base {α : Type}
    (pde_dict : List (String × α)) (d : α)
    (hfresh : pyLookup "diffusivity_constant" pde_dict = none) :
    get_params_asdict pde_dict d
        = pde_dict ++ [("diffusivity_constant", d)] ∧
    pyLookup "diffusivity_constant" (get_params_asdict pde_dict d)
        = some d ∧
    (get_params_asdict pde_dict d).map Prod.fst
        = pde_dict.map Prod.fst ++ ["diffusivity_constant"] := by
  have hkeys : ∀ p ∈ pde_dict, p.1 ≠ "diffusivity_constant" :=
    (pyLookup_eq_none_iff _ _).mp hfresh
  have h1 : get_params_asdict pde_dict d
      = pde_dict ++ [("diffusivity_constant", d)] := by
    unfold get_params_asdict pyDictMerge
    congr 1
    · have hmap : ∀ p ∈ pde_dict,
          (pyLookup p.1 [("diffusivity_constant", d)]).elim p
            (fun v => (p.1, v)) = p := by
        intro p hp
        have hne : ("diffusivity_constant" : String) ≠ p.1 :=
          fun hc => hkeys p hp hc.symm
        simp [pyLookup, hne]
      rw [List.map_congr_left hmap]
      simp
    · simp [pyLookup, hfresh]
  refine ⟨h1, ?_, ?_⟩
  · rw [h1, pyLookup_append_of_fresh _ _ _ hkeys]
    simp [pyLookup]
  · rw [h1]
    simp

/-- Witness for C8 at a concrete one-entry base dictionary. -/
theorem get_params_asdict_extends_base_witness :
    pyLookup "diffusivity_constant" [("n_steps", (100 : ℚ))] = none ∧
    (get_params_asdict [("n_steps", (100 : ℚ))] (1 / 1000)
        = [("n_steps", 100)] ++ [("diffusivity_constant", 1 / 1000)] ∧
      pyLookup "diffusivity_constant"
          (get_params_asdict [("n_steps", (100 : ℚ))] (1 / 1000))
        = some (1 / 1000) ∧
      (get_params_asdict [("n_steps", (100 : ℚ))] (1 / 1000)).map Prod.fst
        = [("n_steps", (100 : ℚ))].map Prod.fst ++ ["diffusivity_constant"]) :=
  ⟨by simp [pyLookup],
    get_params_asdict_extends_base [("n_steps", 100)] (1 / 1000)
      (by simp [pyLookup])⟩

/-- C1: the nonlinear operator returns, for every spectral state and
action, exactly the sum of the spec's advection term (oversample by
`3/2`, square, transform, truncate to `⌊n_state/2⌋+1` modes, rescale by
`1/(3/2)`, multiply by `-0.5j × wavenumber`) and the spec's
control-forcing term (spectral transform of the Control Support
Matrix's columns times the action). -/
theorem fourier_nonlinear_op_eq_spec (fftI : NumpyRFFT) (n_state : ℕ)
    (domain_wavenumbers : List ℚ) (control_sup : List (List ℚ))
    (state_fourier action : List CQ) :
    fourier_nonlinear_op fftI n_state domain_wavenumbers control_sup
        state_fourier action
      = vaddV (specAdvectionTerm fftI n_state domain_wavenumbers state_fourier)
          (specControlForcingTerm fftI control_sup action) := by
  apply List.ext_getElem
  · simp [fourier_nonlinear_op, specAdvectionTerm, specControlForcingTerm,
      vaddV, smulV, List.length_zipWith]
  · intro i h1 h2
    simp only [fourier_nonlinear_op, specAdvectionTerm, specControlForcingTerm,
      vaddV, smulV, List.getElem_zipWith, List.getElem_map]
    ring

theorem length_vsubV {α : Type} [CommRing α] (x y : List α) :
    (vsubV x y).length = min x.length y.length := by
  simp [vsubV]

/-- C10: for a spectral state of length `⌊n_state/2⌋+1` and an action
of length `n_action`, the nonlinear operator's right-hand side has
length exactly `⌊n_state/2⌋+1`: the advection term is truncated to
that many modes and the transformed control-forcing term has the same
length, so the sum is well-defined. -/
theorem fourier_nonlinear_op_length (fftI : NumpyRFFT) (n_state : ℕ)
    (domain_wavenumbers : List ℚ) (control_sup : List (List ℚ))
    (state_fourier action : List CQ)
    (hw : domain_wavenumbers.length = n_state / 2 + 1)
    (hs : state_fourier.length = n_state / 2 + 1)
    (hcs : control_sup ≠ [])
    (hc : ∀ c ∈ control_sup, c.length = n_state)
    (ha : action.length = control_sup.length) :
    (fourier_nonlinear_op fftI n_state domain_wavenumbers control_sup
        state_fourier action).length = n_state / 2 + 1 := by
  obtain ⟨c0, cs', rfl⟩ : ∃ c0 cs', control_sup = c0 :: cs' := by
    cases control_sup with
    | nil => exact absurd rfl hcs
    | cons c0 cs' => exact ⟨c0, cs', rfl⟩
  have hM : ∀ col ∈ (c0 :: cs').map (fun c => fftI.rfft (c.map CQ.ofRat)),
      col.length = n_state / 2 + 1 := by
    intro col hcol
    obtain ⟨c, hcmem, rfl⟩ := List.mem_map.mp hcol
    rw [fftI.rfft_length, List.length_map, hc c hcmem]
  have hF : (matvecCols ((c0 :: cs').map (fun c => fftI.rfft (c.map CQ.ofRat)))
      action).length = n_state / 2 + 1 := by
    have hhead : ((((c0 :: cs').map
        (fun c => fftI.rfft (c.map CQ.ofRat))).headD [])).length
        = n_state / 2 + 1 := by
      show (fftI.rfft (c0.map CQ.ofRat)).length = n_state / 2 + 1
      rw [fftI.rfft_length, List.length_map, hc c0 (List.mem_cons_self c0 cs')]
    unfold matvecCols
    rw [hhead]
    exact length_sumVecs _ _ (length_mem_zipWith_smulV action _ hM)
  simp only [fourier_nonlinear_op]
  rw [length_vaddV, hF, List.length_zipWith, hw, List.length_take,
    fftI.rfft_length, List.length_map, length_smulV, fftI.irfft_length]
  omega

/-- Witness for C10 at a concrete two-point environment with the
concrete transform `flatRFFT`. -/
theorem fourier_nonlinear_op_length_witness :
    ([0, 1] : List ℚ).length = 2 / 2 + 1 ∧
    ([⟨0, 0⟩, ⟨0, 0⟩] : List CQ).length = 2 / 2 + 1 ∧
    ([[1, 1]] : List (List ℚ)) ≠ [] ∧
    (∀ c ∈ ([[1, 1]] : List (List ℚ)), c.length = 2) ∧
    ([⟨1, 0⟩] : List CQ).length = ([[1, 1]] : List (List ℚ)).length ∧
    (fourier_nonlinear_op flatRFFT 2 [0, 1] [[1, 1]]
        [⟨0, 0⟩, ⟨0, 0⟩] [⟨1, 0⟩]).length = 2 / 2 + 1 :=
  ⟨rfl, rfl, by simp, by simp, rfl,
    fourier_nonlinear_op_length flatRFFT 2 [0, 1] [[1, 1]]
      [⟨0, 0⟩, ⟨0, 0⟩] [⟨1, 0⟩] rfl rfl (by simp) (by simp) rfl⟩

/-- C5: the control-forcing contribution of the nonlinear operator is
linear in the action: for a fixed spectral state,
`N(s, a1 + a2) - N(s, a1) - (N(s, a2) - N(s, 0))` is the zero vector
(the advection term depends only on the state and cancels, and the
spectral matrix–vector product is additive in the action). -/
theorem fourier_nonlinear_op_forcing_linear (fftI : NumpyRFFT) (n_state : ℕ)
    (domain_wavenumbers : List ℚ) (control_sup : List (List ℚ))
    (state_fourier : List CQ) (a1 a2 : List CQ) (n_action : ℕ)
    (hw : domain_wavenumbers.length = n_state / 2 + 1)
    (hcs : control_sup ≠ [])
    (hc : ∀ c ∈ control_sup, c.length = n_state)
    (hcount : control_sup.length = n_action)
    (ha1 : a1.length = n_action) (ha2 : a2.length = n_action) :
    vsubV
      (vsubV
        (fourier_nonlinear_op fftI n_state domain_wavenumbers control_sup
          state_fourier (vaddV a1 a2))
        (fourier_nonlinear_op fftI n_state domain_wavenumbers control_sup
          state_fourier a1))
      (vsubV
        (fourier_nonlinear_op fftI n_state domain_wavenumbers control_sup
          state_fourier a2)
        (fourier_nonlinear_op fftI n_state domain_wavenumbers control_sup
          state_fourier (List.replicate n_action 0)))
      = List.replicate (n_state / 2 + 1) 0 := by
  obtain ⟨c0, cs', rfl⟩ : ∃ c0 cs', control_sup = c0 :: cs' := by
    cases control_sup with
    | nil => exact absurd rfl hcs
    | cons c0 cs' => exact ⟨c0, cs', rfl⟩
  have hM : ∀ col ∈ (c0 :: cs').map (fun c => fftI.rfft (c.map CQ.ofRat)),
      col.length = n_state / 2 + 1 := by
    intro col hcol
    obtain ⟨c, hcmem, rfl⟩ := List.mem_map.mp hcol
    rw [fftI.rfft_length, List.length_map, hc c hcmem]
  have hhead : ((((c0 :: cs').map
      (fun c => fftI.rfft (c.map CQ.ofRat))).headD [])).length
      = n_state / 2 + 1 := by
    show (fftI.rfft (c0.map CQ.ofRat)).length = n_state / 2 + 1
    rw [fftI.rfft_length, List.length_map, hc c0 (List.mem_cons_self c0 cs')]
  have hS1 : (sumVecs (n_state / 2 + 1)
      (List.zipWith smulV a1
        ((c0 :: cs').map (fun c => fftI.rfft (c.map CQ.ofRat))))).length
      = n_state / 2 + 1 :=
    length_sumVecs _ _ (length_mem_zipWith_smulV a1 _ hM)
  have hS2 : (sumVecs (n_state / 2 + 1)
      (List.zipWith smulV a2
        ((c0 :: cs').map (fun c => fftI.rfft (c.map CQ.ofRat))))).length
      = n_state / 2 + 1 :=
    length_sumVecs _ _ (length_mem_zipWith_smulV a2 _ hM)
  simp only [fourier_nonlinear_op, matvecCols, hhead]
  rw [sumVecs_zip_smul_add (n_state / 2 + 1) _ a1 a2 (ha1.trans ha2.symm),
    sumVecs_zip_smul_zero (n_state / 2 + 1) _ n_action hM]
  apply List.ext_getElem
  · simp only [length_vsubV, length_vaddV, List.length_zipWith,
      List.length_take, List.length_replicate, fftI.rfft_length,
      List.length_map, length_smulV, fftI.irfft_length, hw, hS1, hS2]
    omega
  · intro i h1 h2
    simp only [vsubV, vaddV, List.getElem_zipWith, List.getElem_replicate]
    ring

/-- Witness for C5 at a concrete two-point environment with the
concrete transform `flatRFFT` and actions `[1]`, `[2]`. -/
theorem fourier_nonlinear_op_forcing_linear_witness :
    ([0, 1] : List ℚ).length = 2 / 2 + 1 ∧
    ([[1, 1]] : List (List ℚ)) ≠ [] ∧
    (∀ c ∈ ([[1, 1]] : List (List ℚ)), c.length = 2) ∧
    ([[1, 1]] : List (List ℚ)).length = 1 ∧
    ([⟨1, 0⟩] : List CQ).length = 1 ∧
    ([⟨2, 0⟩] : List CQ).length = 1 ∧
    vsubV
      (vsubV
        (fourier_nonlinear_op flatRFFT 2 [0, 1] [[1, 1]]
          [⟨1, 0⟩, ⟨0, 0⟩] (vaddV [⟨1, 0⟩] [⟨2, 0⟩]))
        (fourier_nonlinear_op flatRFFT 2 [0, 1] [[1, 1]]
          [⟨1, 0⟩, ⟨0, 0⟩] [⟨1, 0⟩]))
      (vsubV
        (fourier_nonlinear_op flatRFFT 2 [0, 1] [[1, 1]]
          [⟨1, 0⟩, ⟨0, 0⟩] [⟨2, 0⟩])
        (fourier_nonlinear_op flatRFFT 2 [0, 1] [[1, 1]]
          [⟨1, 0⟩, ⟨0, 0⟩] (List.replicate 1 0)))
      = List.replicate (2 / 2 + 1) 0 :=
  ⟨rfl, by simp, by simp, rfl, rfl, rfl,
    fourier_nonlinear_op_forcing_linear flatRFFT 2 [0, 1] [[1, 1]]
      [⟨1, 0⟩, ⟨0, 0⟩] [⟨1, 0⟩] [⟨2, 0⟩] 1 rfl (by simp) (by simp) rfl rfl rfl⟩
